import Mathlib

/-!
Verification of `src/film.rs`, the frame / visualization module of the
suptracer renderer.

Modelling conventions (shallow embedding):
* `u32` dimensions and pixel indices are modelled as `ℕ`.  The
  `u32(i).unwrap()` casts in `for_each_pixel` / `set_pixels` are modelled as
  the identity on `ℕ`; they are exact for every frame with at most `2^32`
  pixels.
* `f32` depth values are modelled by the type `F32` below: either a finite
  value, represented exactly as a rational, or the `f32::INFINITY` sentinel.
  `f64` intermediate arithmetic is modelled as exact rational arithmetic;
  the only NaN the pipelines can produce — the `0.0 / 0.0` in `inv_lerp`
  when `x0 == x1` — is represented explicitly by `none` in `Option ℚ` and
  propagated exactly as f64 NaN propagates.
* Panics (`assert!`, `debug_assert!`, `panic!`, `Result::unwrap` on the
  `cast` crate conversions) are modelled by `Except PanicKind`, whose error
  constructor records which panic fired.  `debug_assert!` is conditionally
  compiled, so `inv_lerp` and the conversions take a `debug : Bool` flag.
* A `bmp::Image` is represented by the sequence of `set_pixel(x, y, color)`
  calls issued while building it; since every coordinate is set exactly
  once, this determines the image completely.
-/

/-- Which Rust panic fired.  `degenerateFrame` is the explicit
`panic!("frame empty or ...")` in the two `to_bmp` implementations;
`assertFailed` is the precondition `assert!` in `inv_lerp`;
`debugAssertFailed` is the `debug_assert!` postcondition in `inv_lerp`
(active only in debug builds); `castFailed` is an `unwrap` on a failed
`cast::u8` conversion. -/
inductive PanicKind where
  | degenerateFrame
  | assertFailed
  | debugAssertFailed
  | castFailed
deriving DecidableEq, Repr

/-- Model of Rust `f32` as used by the Depthmap pipeline: a finite value
(represented exactly as a rational) or the `f32::INFINITY` sentinel.  NaN
never arises in the claims' scope and is not represented. -/
inductive F32 where
  | finite (q : ℚ)
  | inf
deriving DecidableEq, Repr

/-- An 8-bit RGB color triple, `bmp::Pixel`. -/
structure Pixel where
  r : ℕ
  g : ℕ
  b : ℕ
deriving DecidableEq, Repr

/-- The fixed miss color `bmp::consts::BLUE`. -/
def Pixel.BLUE : Pixel := ⟨0, 0, 255⟩

/-- The struct `Frame<T>` of film.rs: width, height and linear pixel
buffer.  The Rust invariant `buffer.len() == width * height` is established
by `Frame.new` and stated as a hypothesis where a theorem needs it. -/
structure Frame (T : Type) where
  width : ℕ
  height : ℕ
  buffer : List T
deriving DecidableEq, Repr

/-- `Frame::new(width, height, value)`: allocates `width * height` copies
of `value` (`vec![value; usize(width) * usize(height)]`). -/
def Frame.new (width height : ℕ) (value : T) : Frame T :=
  { width := width, height := height,
    buffer := List.replicate (width * height) value }

/-- `Frame::pixel_values`: the stored values in linear buffer order
(`self.buffer.iter().cloned()`). -/
def Frame.pixel_values (fr : Frame T) : List T :=
  fr.buffer

/-- `Frame::for_each_pixel`, represented by the list of `(x, y, value)`
visitor calls it makes, in order: the buffer is enumerated and linear index
`i` is mapped to `x = i / height`, `y = i % height`.  The frame itself is
only read, never modified — the trace is a pure function of `fr`. -/
def Frame.for_each_pixel (fr : Frame T) : List (ℕ × ℕ × T) :=
  fr.pixel_values.enum.map (fun p => (p.1 / fr.height, p.1 % fr.height, p.2))

/-- `Frame::set_pixels(f)`: the denotation of the rayon data-parallel loop
`par_iter_mut().enumerate().for_each(...)` — every slot `i` of the buffer
receives `f(i / height, i % height)`, independently of all other slots. -/
def Frame.set_pixels (fr : Frame T) (f : ℕ → ℕ → T) : Frame T :=
  { fr with
    buffer := (List.range fr.buffer.length).map
      (fun i => f (i / fr.height) (i % fr.height)) }

/-- One parallel worker's write of slot `i` during `set_pixels`:
`*px = f(x, y)` with `x = i / height`, `y = i % height`. -/
def Frame.write_pixel (fr : Frame T) (f : ℕ → ℕ → T) (i : ℕ) : Frame T :=
  { fr with buffer := fr.buffer.set i (f (i / fr.height) (i % fr.height)) }

/-- An arbitrary interleaving of the parallel workers of `set_pixels`: the
slots are written one at a time in the order given by `sched`.  A schedule
that is a permutation of `0, …, len-1` covers exactly the writes rayon
performs, in some order chosen by the partitioning. -/
def Frame.set_pixels_sched (fr : Frame T) (f : ℕ → ℕ → T) (sched : List ℕ) :
    Frame T :=
  sched.foldl (fun a i => a.write_pixel f i) fr

/-- Rust `f64::round`: round half away from zero. -/
def rustRound (q : ℚ) : ℤ :=
  if 0 ≤ q then ⌊q + 1 / 2⌋ else ⌈q - 1 / 2⌉

/-- The `cast` crate's checked `u8(v).unwrap()` on an `f64` that is either
NaN (`none`, panics), or an integral value (in range: succeeds; out of
range: panics). -/
def u8cast (z : Option ℤ) : Except PanicKind ℕ :=
  match z with
  | none => .error .castFailed
  | some z => if 0 ≤ z ∧ z ≤ 255 then .ok z.toNat else .error .castFailed

/-- `inv_lerp(x, x0, x1)` of film.rs over exact rationals.
`assert!(x0 <= x && x <= x1)`; then `t = (x - x0) / (x1 - x0)`, which is
NaN (`none`) exactly when `x1 = x0` (then the assert forces `x = x0`, so
the division is `0.0 / 0.0`); then `debug_assert!(0.0 <= t && t <= 1.0)`,
active only when `debug` is true, which fails on NaN because NaN
comparisons are false. -/
def inv_lerp (debug : Bool) (x x0 x1 : ℚ) : Except PanicKind (Option ℚ) :=
  if x0 ≤ x ∧ x ≤ x1 then
    let t : Option ℚ :=
      if x1 - x0 = 0 then none else some ((x - x0) / (x1 - x0))
    if debug then
      match t with
      | none => .error .debugAssertFailed
      | some q =>
          if 0 ≤ q ∧ q ≤ 1 then .ok (some q) else .error .debugAssertFailed
    else .ok t
  else .error .assertFailed

/-- The result type of itertools' `minmax` / `minmax_by_key`. -/
inductive MinMaxResult (α : Type) where
  | noElements
  | oneElement (a : α)
  | minMax (mn mx : α)
deriving DecidableEq, Repr

/-- itertools `minmax` (and `minmax_by_key` with an order-preserving key):
no elements, one element, or the minimum and maximum values of the list.
Tie-breaking by position only affects which of several equal elements is
returned, which is unobservable for the `Copy` scalar values used here. -/
def minmax [LinearOrder α] (l : List α) : MinMaxResult α :=
  match l with
  | [] => .noElements
  | [a] => .oneElement a
  | a :: b :: rest =>
      .minMax ((b :: rest).foldl min a) ((b :: rest).foldl max a)

/-- The private generic `Frame::to_bmp(f)`: builds a `width × height`
image by issuing `img.set_pixel(x, y, f(px))` for every visitor call of
`for_each_pixel`; represented by the ordered list of those `set_pixel`
calls.  A panic inside `f` aborts the whole conversion. -/
def Frame.to_bmp (fr : Frame T) (f : T → Except PanicKind Pixel) :
    Except PanicKind (List ((ℕ × ℕ) × Pixel)) :=
  fr.for_each_pixel.mapM (fun p => (f p.2.2).map (fun c => ((p.1, p.2.1), c)))

/-- The tuple struct `Depthmap(pub Frame<f32>)`. -/
structure Depthmap where
  fr : Frame F32
deriving DecidableEq

/-- The tuple struct `Heatmap(pub Frame<u32>)`; `u32` heat values are
modelled as `ℕ`. -/
structure Heatmap where
  fr : Frame ℕ
deriving DecidableEq

/-- The finite (non-INFINITY) depth values of a Depthmap, in buffer order:
`frame.pixel_values().filter(|&x| x != f32::INFINITY)`, coerced to their
exact rational values (the `f32 → f64` conversion in `inv_lerp` and the
`NotNaN` key are exact / order-preserving on them). -/
def finite_depths (d : Depthmap) : List ℚ :=
  d.fr.pixel_values.filterMap
    (fun v => match v with | .finite q => some q | .inf => none)

/-- The per-pixel closure of `<Depthmap as ToBmp>::to_bmp`: INFINITY maps
to BLUE, a finite depth to the grayscale level
`u8(((1.0 - inv_lerp(depth, mn, mx)) * 255.0).round()).unwrap()`. -/
def depth_color (debug : Bool) (mn mx : ℚ) (depth : F32) :
    Except PanicKind Pixel :=
  match depth with
  | .inf => .ok Pixel.BLUE
  | .finite q => do
      let t ← inv_lerp debug q mn mx
      let s ← u8cast (t.map (fun v => rustRound ((1 - v) * 255)))
      .ok ⟨s, s, s⟩

/-- `<Depthmap as ToBmp>::to_bmp`: minmax over the finite depth values;
`MinMax(mn, mx)` proceeds to the per-pixel conversion, anything else is the
`panic!("frame empty or not a single pixel")`. -/
def Depthmap.to_bmp (debug : Bool) (d : Depthmap) :
    Except PanicKind (List ((ℕ × ℕ) × Pixel)) :=
  match minmax (finite_depths d) with
  | .minMax mn mx => d.fr.to_bmp (depth_color debug mn mx)
  | _ => .error .degenerateFrame

/-- The per-pixel closure of `<Heatmap as ToBmp>::to_bmp`: red channel
`u8((inv_lerp(heat, mn, mx) * 255.0).round()).unwrap()`, green and blue 0.
The `u32 → f64` conversions are exact. -/
def heat_color (debug : Bool) (mn mx : ℕ) (heat : ℕ) :
    Except PanicKind Pixel := do
  let t ← inv_lerp debug (heat : ℚ) (mn : ℚ) (mx : ℚ)
  let s ← u8cast (t.map (fun v => rustRound (v * 255)))
  .ok ⟨s, 0, 0⟩

/-- `<Heatmap as ToBmp>::to_bmp`: minmax over all pixel values;
`MinMax(mn, mx)` proceeds, anything else is the
`panic!("frame empty or a single pixel")`. -/
def Heatmap.to_bmp (debug : Bool) (h : Heatmap) :
    Except PanicKind (List ((ℕ × ℕ) × Pixel)) :=
  match minmax h.fr.pixel_values with
  | .minMax mn mx => h.fr.to_bmp (heat_color debug mn mx)
  | _ => .error .degenerateFrame

/-- The claim's specification of the Depthmap per-pixel color, written
from the spec's words: INFINITY ↦ the fixed blue miss color, a finite
value ↦ the grayscale triple with
`level = round((1 - inv_lerp(value, mn, mx)) * 255)`. -/
def depth_color_spec (mn mx : ℚ) (depth : F32) : Pixel :=
  match depth with
  | .inf => Pixel.BLUE
  | .finite q =>
      let s := (rustRound ((1 - (q - mn) / (mx - mn)) * 255)).toNat
      ⟨s, s, s⟩

/-- The claim's specification of the Heatmap per-pixel color, written from
the spec's words: `level = round(inv_lerp(v, mn, mx) * 255)` on the red
channel, green and blue 0. -/
def heat_color_spec (mn mx : ℕ) (heat : ℕ) : Pixel :=
  ⟨(rustRound (((heat : ℚ) - mn) / ((mx : ℚ) - mn) * 255)).toNat, 0, 0⟩

/-! ### Helper lemmas -/

theorem frame_fields_ext {T : Type} {f1 f2 : Frame T} (hw : f1.width = f2.width)
    (hh : f1.height = f2.height) (hb : f1.buffer = f2.buffer) : f1 = f2 := by
  cases f1; cases f2; simp_all

theorem mapM_ok_of_forall {α β : Type} (f : α → Except PanicKind β) (g : α → β)
    (l : List α) (h : ∀ x ∈ l, f x = .ok (g x)) :
    l.mapM f = .ok (l.map g) := by
  induction l with
  | nil => rfl
  | cons a t ih =>
      rw [List.mapM_cons, h a (by simp), ih (fun x hx => h x (by simp [hx]))]
      rfl

theorem mapM_error_head {α β : Type} (f : α → Except PanicKind β) (a : α)
    (l : List α) (e : PanicKind) (h : f a = .error e) :
    (a :: l).mapM f = .error e := by
  rw [List.mapM_cons, h]
  rfl

theorem inv_lerp_ok (debug : Bool) (x x0 x1 : ℚ)
    (h0 : x0 ≤ x) (h1 : x ≤ x1) (hlt : x0 < x1) :
    inv_lerp debug x x0 x1 = .ok (some ((x - x0) / (x1 - x0))) := by
  have hne : x1 - x0 ≠ 0 := sub_ne_zero.mpr (ne_of_gt hlt)
  have ht0 : 0 ≤ (x - x0) / (x1 - x0) :=
    div_nonneg (by linarith) (by linarith)
  have ht1 : (x - x0) / (x1 - x0) ≤ 1 :=
    (div_le_one (by linarith)).mpr (by linarith)
  cases debug <;> simp [inv_lerp, h0, h1, hne, ht0, ht1]

theorem inv_lerp_degenerate (debug : Bool) (x0 : ℚ) :
    inv_lerp debug x0 x0 x0 =
      (if debug then .error .debugAssertFailed else .ok none) := by
  cases debug <;> simp [inv_lerp]

theorem rustRound_bounds (q : ℚ) (h0 : 0 ≤ q) (h255 : q ≤ 255) :
    0 ≤ rustRound q ∧ rustRound q ≤ 255 := by
  unfold rustRound
  rw [if_pos h0]
  constructor
  · exact Int.le_floor.mpr (by push_cast; linarith)
  · have : ⌊q + 1 / 2⌋ < 256 := Int.floor_lt.mpr (by push_cast; linarith)
    omega

theorem u8cast_ok (z : ℤ) (h0 : 0 ≤ z) (h255 : z ≤ 255) :
    u8cast (some z) = .ok z.toNat := by
  simp [u8cast, h0, h255]

theorem foldl_min_le_init {α : Type} [LinearOrder α] (l : List α) (a : α) :
    l.foldl min a ≤ a := by
  induction l generalizing a with
  | nil => simp
  | cons b t ih => exact le_trans (ih (min a b)) (min_le_left a b)

theorem foldl_min_le_mem {α : Type} [LinearOrder α] (l : List α) (a : α) :
    ∀ x ∈ l, l.foldl min a ≤ x := by
  induction l generalizing a with
  | nil => simp
  | cons b t ih =>
      intro x hx
      rcases List.mem_cons.mp hx with h | h
      · subst h
        exact le_trans (foldl_min_le_init t (min a x)) (min_le_right a x)
      · exact ih (min a b) x h

theorem foldl_min_mem {α : Type} [LinearOrder α] (l : List α) (a : α) :
    l.foldl min a = a ∨ l.foldl min a ∈ l := by
  induction l generalizing a with
  | nil => left; rfl
  | cons b t ih =>
      rcases ih (min a b) with h | h
      · rcases min_choice a b with hm | hm
        · left; rw [List.foldl_cons, h, hm]
        · right; rw [List.mem_cons]; left; rw [List.foldl_cons, h, hm]
      · right; exact List.mem_cons_of_mem b h

theorem le_foldl_max_init {α : Type} [LinearOrder α] (l : List α) (a : α) :
    a ≤ l.foldl max a := by
  induction l generalizing a with
  | nil => simp
  | cons b t ih => exact le_trans (le_max_left a b) (ih (max a b))

theorem le_foldl_max_mem {α : Type} [LinearOrder α] (l : List α) (a : α) :
    ∀ x ∈ l, x ≤ l.foldl max a := by
  induction l generalizing a with
  | nil => simp
  | cons b t ih =>
      intro x hx
      rcases List.mem_cons.mp hx with h | h
      · subst h
        exact le_trans (le_max_right a x) (le_foldl_max_init t (max a x))
      · exact ih (max a b) x h

theorem foldl_max_mem {α : Type} [LinearOrder α] (l : List α) (a : α) :
    l.foldl max a = a ∨ l.foldl max a ∈ l := by
  induction l generalizing a with
  | nil => left; rfl
  | cons b t ih =>
      rcases ih (max a b) with h | h
      · rcases max_choice a b with hm | hm
        · left; rw [List.foldl_cons, h, hm]
        · right; rw [List.mem_cons]; left; rw [List.foldl_cons, h, hm]
      · right; exact List.mem_cons_of_mem b h

theorem minmax_spec {α : Type} [LinearOrder α] (l : List α) (a b : α)
    (ha : a ∈ l) (hb : b ∈ l) (hab : a ≠ b) :
    ∃ mn mx, minmax l = .minMax mn mx ∧ mn ∈ l ∧ mx ∈ l ∧
      (∀ x ∈ l, mn ≤ x ∧ x ≤ mx) ∧ mn < mx := by
  match l with
  | [] => cases ha
  | [c] =>
      exact absurd ((List.mem_singleton.mp ha).trans
        (List.mem_singleton.mp hb).symm) hab
  | c :: d :: rest =>
      refine ⟨(d :: rest).foldl min c, (d :: rest).foldl max c, rfl, ?_, ?_, ?_, ?_⟩
      · rcases foldl_min_mem (d :: rest) c with h | h
        · rw [h]; exact List.mem_cons_self _ _
        · exact List.mem_cons_of_mem c h
      · rcases foldl_max_mem (d :: rest) c with h | h
        · rw [h]; exact List.mem_cons_self _ _
        · exact List.mem_cons_of_mem c h
      · intro x hx
        rcases List.mem_cons.mp hx with h | h
        · subst h
          exact ⟨foldl_min_le_init _ _, le_foldl_max_init _ _⟩
        · exact ⟨foldl_min_le_mem _ _ x h, le_foldl_max_mem _ _ x h⟩
      · have hbnd : ∀ x ∈ c :: d :: rest,
            (d :: rest).foldl min c ≤ x ∧ x ≤ (d :: rest).foldl max c := by
          intro x hx
          rcases List.mem_cons.mp hx with h | h
          · subst h
            exact ⟨foldl_min_le_init _ _, le_foldl_max_init _ _⟩
          · exact ⟨foldl_min_le_mem _ _ x h, le_foldl_max_mem _ _ x h⟩
        rcases lt_or_gt_of_ne hab with h | h
        · exact lt_of_le_of_lt (hbnd a ha).1 (lt_of_lt_of_le h (hbnd b hb).2)
        · exact lt_of_le_of_lt (hbnd b hb).1 (lt_of_lt_of_le h (hbnd a ha).2)

theorem foldl_eq_of_all_eq {α : Type} (f : α → α → α) (c : α) (hf : f c c = c)
    (l : List α) (h : ∀ x ∈ l, x = c) : l.foldl f c = c := by
  induction l with
  | nil => rfl
  | cons a t ih =>
      have ha : a = c := h a (by simp)
      rw [List.foldl_cons, ha, hf]
      exact ih (fun x hx => h x (by simp [hx]))

theorem minmax_const {α : Type} [LinearOrder α] (l : List α) (c : α)
    (hlen : 2 ≤ l.length) (hc : ∀ x ∈ l, x = c) :
    minmax l = .minMax c c := by
  match l with
  | [] => simp at hlen
  | [a] => simp at hlen
  | a :: b :: rest =>
      have ha : a = c := hc a (by simp)
      have hrest : ∀ x ∈ b :: rest, x = c :=
        fun x hx => hc x (List.mem_cons_of_mem a hx)
      rw [minmax, ha,
        foldl_eq_of_all_eq min c (min_self c) _ hrest,
        foldl_eq_of_all_eq max c (max_self c) _ hrest]

theorem divmod_inj (h i j : ℕ) (hd : i / h = j / h) (hm : i % h = j % h) :
    i = j := by
  have h1 := Nat.div_add_mod i h
  have h2 := Nat.div_add_mod j h
  rw [hd, hm] at h1
  omega

theorem divmod_surj (w h x y : ℕ) (hx : x < w) (hy : y < h) :
    h * x + y < w * h ∧ (h * x + y) / h = x ∧ (h * x + y) % h = y := by
  have hpos : 0 < h := Nat.pos_of_ne_zero (fun hc => by omega)
  refine ⟨?_, ?_, ?_⟩
  · calc h * x + y < h * x + h := by omega
      _ = h * (x + 1) := (Nat.mul_succ h x).symm
      _ ≤ h * w := Nat.mul_le_mul_left h hx
      _ = w * h := Nat.mul_comm h w
  · rw [Nat.mul_add_div hpos, Nat.div_eq_of_lt hy, Nat.add_zero]
  · rw [Nat.mul_add_mod, Nat.mod_eq_of_lt hy]

/-! ### The claims -/

/-- C7: for all `x, x0, x1` with `x0 ≤ x ≤ x1` and `x0 < x1`, `inv_lerp`
returns `t = (x - x0) / (x1 - x0)` (in either build mode); in particular
`inv_lerp(x0, x0, x1) = 0` and `inv_lerp(x1, x0, x1) = 1`. -/
theorem inv_lerp_formula (debug : Bool) (x x0 x1 : ℚ)
    (h0 : x0 ≤ x) (h1 : x ≤ x1) (hlt : x0 < x1) :
    inv_lerp debug x x0 x1 = .ok (some ((x - x0) / (x1 - x0))) ∧
    inv_lerp debug x0 x0 x1 = .ok (some 0) ∧
    inv_lerp debug x1 x0 x1 = .ok (some 1) := by
  refine ⟨inv_lerp_ok debug x x0 x1 h0 h1 hlt, ?_, ?_⟩
  · have h := inv_lerp_ok debug x0 x0 x1 le_rfl hlt.le hlt
    simpa using h
  · have h := inv_lerp_ok debug x1 x0 x1 hlt.le le_rfl hlt
    rw [h, div_self (sub_ne_zero.mpr (ne_of_gt hlt))]

theorem inv_lerp_formula_witness :
    inv_lerp false 1 0 2 = .ok (some ((1 - 0) / (2 - 0))) ∧
    inv_lerp false 0 0 2 = .ok (some 0) ∧
    inv_lerp false 2 0 2 = .ok (some 1) :=
  inv_lerp_formula false 1 0 2 (by norm_num) (by norm_num) (by norm_num)

/-- C8 counterexample: in a debug build, `inv_lerp(0, 0, 0)` has `x` inside
`[x0, x1]` yet does not return normally — the NaN produced by `0.0 / 0.0`
makes the `debug_assert!` postcondition fail. -/
theorem inv_lerp_in_range_panic :
    inv_lerp true 0 0 0 = .error .debugAssertFailed := by
  simp [inv_lerp]

/-- C8 amended: `inv_lerp` panics on the precondition `assert!` exactly
when `x` lies outside `[x0, x1]`, and returns normally (with the computed
coefficient) whenever `x0 ≤ x ≤ x1` and `x0 < x1`; in the remaining
in-range case `x = x0 = x1` it returns NaN in release builds but panics on
the `debug_assert!` postcondition in debug builds. -/
theorem inv_lerp_panic_range (debug : Bool) (x x0 x1 : ℚ) :
    (¬ (x0 ≤ x ∧ x ≤ x1) → inv_lerp debug x x0 x1 = .error .assertFailed) ∧
    (x0 ≤ x → x ≤ x1 → x0 < x1 →
      inv_lerp debug x x0 x1 = .ok (some ((x - x0) / (x1 - x0)))) ∧
    inv_lerp false x0 x0 x0 = .ok none ∧
    inv_lerp true x0 x0 x0 = .error .debugAssertFailed := by
  refine ⟨?_, fun h0 h1 hlt => inv_lerp_ok debug x x0 x1 h0 h1 hlt, ?_, ?_⟩
  · intro hout
    simp [inv_lerp, hout]
  · simp [inv_lerp]
  · simp [inv_lerp]

theorem inv_lerp_panic_range_witness :
    inv_lerp false 7 0 2 = .error .assertFailed ∧
    inv_lerp false 1 0 2 = .ok (some ((1 - 0) / (2 - 0))) :=
  ⟨(inv_lerp_panic_range false 7 0 2).1 (by norm_num),
   (inv_lerp_panic_range false 1 0 2).2.1 (by norm_num) (by norm_num) (by norm_num)⟩

/-- C9: `Frame::new(width, height, v)` always succeeds and yields a buffer
of exactly `width * height` elements, all equal to `v` (zero dimensions
give an empty, valid frame). -/
theorem frame_new_spec (T : Type) (width height : ℕ) (v : T) :
    (Frame.new width height v).width = width ∧
    (Frame.new width height v).height = height ∧
    (Frame.new width height v).buffer.length = width * height ∧
    ∀ u ∈ (Frame.new width height v).buffer, u = v := by
  refine ⟨rfl, rfl, by simp [Frame.new], ?_⟩
  intro u hu
  exact List.eq_of_mem_replicate hu

theorem frame_new_spec_witness :
    (Frame.new 2 3 (7 : ℕ)).buffer.length = 2 * 3 ∧
    (Frame.new 2 3 (7 : ℕ)).buffer.getD 0 0 = 7 :=
  ⟨(frame_new_spec ℕ 2 3 7).2.2.1,
   (frame_new_spec ℕ 2 3 7).2.2.2 _ (by decide)⟩

/-- C4: a Depthmap in which at most one finite (non-INFINITY) value
remains after excluding sentinels makes `to_bmp` stop with the
unrecoverable `panic!("frame empty or not a single pixel")` before any
`set_pixel` call is issued, in either build mode. -/
theorem depthmap_to_bmp_degenerate (debug : Bool) (d : Depthmap)
    (h : (finite_depths d).length ≤ 1) :
    Depthmap.to_bmp debug d = .error .degenerateFrame := by
  unfold Depthmap.to_bmp
  rcases hl : finite_depths d with _ | ⟨a, _ | ⟨b, rest⟩⟩
  · simp [minmax]
  · simp [minmax]
  · rw [hl] at h
    simp at h

theorem depthmap_to_bmp_degenerate_witness :
    ((finite_depths ⟨⟨1, 2, [F32.inf, F32.inf]⟩⟩).length ≤ 1) ∧
    Depthmap.to_bmp false ⟨⟨1, 2, [F32.inf, F32.inf]⟩⟩ =
      .error .degenerateFrame :=
  ⟨by decide, depthmap_to_bmp_degenerate false _ (by decide)⟩

/-- C6: a Heatmap whose frame has zero or one pixel makes `to_bmp` stop
with the unrecoverable `panic!("frame empty or a single pixel")` before any
`set_pixel` call is issued, in either build mode. -/
theorem heatmap_to_bmp_degenerate (debug : Bool) (h : Heatmap)
    (hle : h.fr.pixel_values.length ≤ 1) :
    Heatmap.to_bmp debug h = .error .degenerateFrame := by
  unfold Heatmap.to_bmp
  rcases hl : h.fr.pixel_values with _ | ⟨a, _ | ⟨b, rest⟩⟩
  · simp [minmax]
  · simp [minmax]
  · rw [hl] at hle
    simp at hle

theorem heatmap_to_bmp_degenerate_witness :
    ((⟨⟨1, 1, [5]⟩⟩ : Heatmap).fr.pixel_values.length ≤ 1) ∧
    Heatmap.to_bmp false ⟨⟨1, 1, [5]⟩⟩ = .error .degenerateFrame :=
  ⟨by decide, heatmap_to_bmp_degenerate false _ (by decide)⟩

theorem count_eq_one_of_mem_nodup {α : Type} [BEq α] [LawfulBEq α]
    (l : List α) (a : α) (hnd : l.Nodup) (hmem : a ∈ l) : l.count a = 1 := by
  induction l with
  | nil => cases hmem
  | cons b t ih =>
      have hbt : b ∉ t := (List.nodup_cons.mp hnd).1
      have hnt : t.Nodup := (List.nodup_cons.mp hnd).2
      rcases List.mem_cons.mp hmem with h | h
      · subst h
        have hz : t.count a = 0 := List.count_eq_zero.mpr hbt
        simp [List.count_cons, hz]
      · have hne : b ≠ a := fun hc => hbt (hc ▸ h)
        simp [List.count_cons, ih hnt h, hne]

theorem for_each_pixel_getElem (T : Type) (fr : Frame T) (i : ℕ) :
    fr.for_each_pixel[i]? =
      fr.buffer[i]?.map (fun v => (i / fr.height, i % fr.height, v)) := by
  unfold Frame.for_each_pixel Frame.pixel_values
  rw [List.getElem?_map, List.getElem?_enum]
  cases fr.buffer[i]? <;> rfl

theorem for_each_pixel_coords (T : Type) (fr : Frame T) :
    fr.for_each_pixel.map (fun p => (p.1, p.2.1)) =
      (List.range fr.buffer.length).map
        (fun i => (i / fr.height, i % fr.height)) := by
  unfold Frame.for_each_pixel Frame.pixel_values
  rw [List.map_map]
  have hcomp :
      ((fun p : ℕ × ℕ × T => (p.1, p.2.1)) ∘
        (fun p : ℕ × T => (p.1 / fr.height, p.1 % fr.height, p.2))) =
      ((fun i : ℕ => (i / fr.height, i % fr.height)) ∘ Prod.fst) := rfl
  rw [hcomp, ← List.map_map, List.enum_map_fst]

/-- C2: `for_each_pixel` on a frame satisfying the buffer-length invariant
makes exactly `width * height` visitor calls; the `i`-th call (in ascending
linear buffer order) receives coordinates `x = i / height`,
`y = i % height` together with the stored value at slot `i`; and every
coordinate pair of `[0, width) × [0, height)` is visited exactly once.
The frame is only read: the trace is a pure function of the frame. -/
theorem for_each_pixel_complete (T : Type) (fr : Frame T)
    (hwf : fr.buffer.length = fr.width * fr.height) :
    fr.for_each_pixel.length = fr.width * fr.height ∧
    (∀ i : ℕ, fr.for_each_pixel[i]? =
      fr.buffer[i]?.map (fun v => (i / fr.height, i % fr.height, v))) ∧
    (∀ x y : ℕ, x < fr.width → y < fr.height →
      (fr.for_each_pixel.map (fun p => (p.1, p.2.1))).count (x, y) = 1) := by
  refine ⟨?_, for_each_pixel_getElem T fr, ?_⟩
  · rw [← hwf]
    unfold Frame.for_each_pixel Frame.pixel_values
    rw [List.length_map, List.enum_length]
  · intro x y hx hy
    rw [for_each_pixel_coords]
    have hnd : ((List.range fr.buffer.length).map
        (fun i => (i / fr.height, i % fr.height))).Nodup := by
      refine List.Nodup.map_on ?_ (List.nodup_range _)
      intro i _ j _ hij
      exact divmod_inj fr.height i j
        (congrArg Prod.fst hij) (congrArg Prod.snd hij)
    have hmem : (x, y) ∈ (List.range fr.buffer.length).map
        (fun i => (i / fr.height, i % fr.height)) := by
      obtain ⟨hlt, hdiv, hmod⟩ := divmod_surj fr.width fr.height x y hx hy
      refine List.mem_map.mpr ⟨fr.height * x + y, ?_, ?_⟩
      · rw [List.mem_range, hwf]
        exact hlt
      · rw [hdiv, hmod]
    exact count_eq_one_of_mem_nodup _ _ hnd hmem

theorem for_each_pixel_complete_witness :
    ((⟨2, 2, [10, 20, 30, 40]⟩ : Frame ℕ).buffer.length = 2 * 2) ∧
    (Frame.for_each_pixel (⟨2, 2, [10, 20, 30, 40]⟩ : Frame ℕ)).length =
      2 * 2 ∧
    ((Frame.for_each_pixel (⟨2, 2, [10, 20, 30, 40]⟩ : Frame ℕ)).map
      (fun p => (p.1, p.2.1))).count (1, 0) = 1 :=
  ⟨by decide,
   (for_each_pixel_complete ℕ ⟨2, 2, [10, 20, 30, 40]⟩ (by decide)).1,
   (for_each_pixel_complete ℕ ⟨2, 2, [10, 20, 30, 40]⟩ (by decide)).2.2
     1 0 (by decide) (by decide)⟩

theorem set_pixels_sched_getElem (T : Type) (f : ℕ → ℕ → T)
    (sched : List ℕ) (fr : Frame T) (j : ℕ) :
    (fr.set_pixels_sched f sched).width = fr.width ∧
    (fr.set_pixels_sched f sched).height = fr.height ∧
    (fr.set_pixels_sched f sched).buffer[j]? =
      (if j ∈ sched ∧ j < fr.buffer.length
       then some (f (j / fr.height) (j % fr.height))
       else fr.buffer[j]?) := by
  induction sched generalizing fr with
  | nil => simp [Frame.set_pixels_sched]
  | cons i rest ih =>
      have hstep : fr.set_pixels_sched f (i :: rest) =
          (fr.write_pixel f i).set_pixels_sched f rest := rfl
      obtain ⟨hw, hh, hb⟩ := ih (fr.write_pixel f i)
      have hwlen : (fr.write_pixel f i).buffer.length = fr.buffer.length :=
        List.length_set fr.buffer _ _
      have hwh : (fr.write_pixel f i).height = fr.height := rfl
      refine ⟨hstep ▸ hw, hstep ▸ hh, ?_⟩
      rw [hstep, hb, hwlen, hwh]
      by_cases hjl : j < fr.buffer.length
      · by_cases hjr : j ∈ rest
        · simp [hjr, hjl, List.mem_cons]
        · by_cases hji : j = i
          · subst hji
            simp [hjr, hjl, Frame.write_pixel, List.getElem?_set, List.mem_cons]
          · have : j ∉ (i :: rest) := by
              simp [List.mem_cons, hji, hjr]
            have hij : ¬ i = j := fun hc => hji hc.symm
            simp [this, hjl, Frame.write_pixel, List.getElem?_set, hij]
            exact fun hc => absurd hc hjr
      · have hnone : fr.buffer[j]? = none :=
          List.getElem?_eq_none (by omega)
        have hwnone : (fr.write_pixel f i).buffer[j]? = none :=
          List.getElem?_eq_none (by rw [hwlen]; omega)
        simp [hjl, hnone, hwnone]

/-- C1: an arbitrary parallel execution of `set_pixels(f)` — any write
order `sched` that covers the slot indices, i.e. any permutation of
`0, …, len-1`, which subsumes every partition of the buffer across
workers — produces exactly the frame of the slot-wise denotation
`Frame.set_pixels` (the sequential assignment order `List.range len` is
one such permutation, so every parallel execution equals the sequential
one), and a subsequent `for_each_pixel` observes at every visited
coordinate `(x, y)` exactly the value `f x y`: synthesis and enumeration
use the identical mapping `x = i / height`, `y = i % height`. -/
theorem set_pixels_parallel_equiv (T : Type) (fr : Frame T)
    (f : ℕ → ℕ → T) (sched : List ℕ)
    (hperm : sched.Perm (List.range fr.buffer.length)) :
    fr.set_pixels_sched f sched = fr.set_pixels f ∧
    ∀ p ∈ (fr.set_pixels_sched f sched).for_each_pixel,
      p.2.2 = f p.1 p.2.1 := by
  obtain ⟨hw, hh, _⟩ := set_pixels_sched_getElem T f sched fr 0
  have hbuf : (fr.set_pixels_sched f sched).buffer =
      (fr.set_pixels f).buffer := by
    apply List.ext_getElem?
    intro j
    obtain ⟨_, _, hb⟩ := set_pixels_sched_getElem T f sched fr j
    rw [hb]
    have hmem : j ∈ sched ↔ j < fr.buffer.length := by
      rw [hperm.mem_iff, List.mem_range]
    by_cases hj : j < fr.buffer.length
    · rw [if_pos ⟨hmem.mpr hj, hj⟩]
      simp [Frame.set_pixels, List.getElem?_map, List.getElem?_range hj]
    · rw [if_neg (fun hc => hj hc.2)]
      have h1 : fr.buffer[j]? = none := List.getElem?_eq_none (by omega)
      have h2 : (List.range fr.buffer.length)[j]? = none :=
        List.getElem?_eq_none (by simp; omega)
      simp [Frame.set_pixels, List.getElem?_map, h1, h2]
  have heq : fr.set_pixels_sched f sched = fr.set_pixels f :=
    frame_fields_ext (by rw [hw]; rfl) (by rw [hh]; rfl) hbuf
  refine ⟨heq, ?_⟩
  rw [heq]
  intro p hp
  unfold Frame.for_each_pixel Frame.pixel_values at hp
  obtain ⟨q, hq, rfl⟩ := List.mem_map.mp hp
  have hget : (fr.set_pixels f).buffer[q.1]? = some q.2 := by
    exact List.mem_enum_iff_getElem?.mp hq
  have hlen : q.1 < fr.buffer.length := by
    by_contra hc
    rw [List.getElem?_eq_none (by simp [Frame.set_pixels]; omega)] at hget
    cases hget
  have : (fr.set_pixels f).buffer[q.1]? =
      some (f (q.1 / fr.height) (q.1 % fr.height)) := by
    simp [Frame.set_pixels, List.getElem?_map, List.getElem?_range hlen]
  rw [this] at hget
  simpa [Frame.set_pixels] using (Option.some_inj.mp hget).symm

theorem set_pixels_parallel_equiv_witness :
    ([3, 1, 0, 2].Perm
      (List.range (Frame.new 2 2 (0 : ℕ)).buffer.length)) ∧
    Frame.set_pixels_sched (Frame.new 2 2 (0 : ℕ))
        (fun x y => 10 * x + y) [3, 1, 0, 2] =
      Frame.set_pixels (Frame.new 2 2 (0 : ℕ)) (fun x y => 10 * x + y) :=
  ⟨by decide,
   (set_pixels_parallel_equiv ℕ (Frame.new 2 2 0)
     (fun x y => 10 * x + y) [3, 1, 0, 2] (by decide)).1⟩

theorem for_each_pixel_value_mem (T : Type) (fr : Frame T) (p : ℕ × ℕ × T)
    (hp : p ∈ fr.for_each_pixel) : p.2.2 ∈ fr.buffer := by
  unfold Frame.for_each_pixel Frame.pixel_values at hp
  obtain ⟨q, hq, rfl⟩ := List.mem_map.mp hp
  have hget := List.mem_enum_iff_getElem?.mp hq
  exact List.mem_iff_getElem?.mpr ⟨q.1, hget⟩

theorem rustRound_255 : rustRound 255 = 255 := by
  norm_num [rustRound]

theorem rustRound_zero : rustRound 0 = 0 := by
  norm_num [rustRound]

theorem depth_color_ok (debug : Bool) (mn mx : ℚ) (hlt : mn < mx) (v : F32)
    (hv : ∀ q : ℚ, v = F32.finite q → mn ≤ q ∧ q ≤ mx) :
    depth_color debug mn mx v = .ok (depth_color_spec mn mx v) := by
  cases v with
  | inf => rfl
  | finite q =>
      obtain ⟨h0, h1⟩ := hv q rfl
      have ht := inv_lerp_ok debug q mn mx h0 h1 hlt
      have ht0 : 0 ≤ (q - mn) / (mx - mn) :=
        div_nonneg (by linarith) (by linarith)
      have ht1 : (q - mn) / (mx - mn) ≤ 1 :=
        (div_le_one (by linarith)).mpr (by linarith)
      obtain ⟨hz0, hz255⟩ :=
        rustRound_bounds ((1 - (q - mn) / (mx - mn)) * 255)
          (by nlinarith) (by nlinarith)
      simp [depth_color, ht, u8cast_ok _ hz0 hz255, depth_color_spec,
        Bind.bind, Except.bind]

/-- C3: on a Depthmap with at least two distinct finite values, `to_bmp`
succeeds (in either build mode) and emits, at each visited coordinate,
the BLUE miss color for an INFINITY pixel and the grayscale triple
`(level, level, level)` with
`level = round((1 - inv_lerp(value, mn, mx)) * 255)` for a finite pixel,
where `(mn, mx)` are the minimum and maximum of the finite values; the
smallest finite value maps to level 255 and the largest to level 0. -/
theorem depthmap_to_bmp_spec (debug : Bool) (d : Depthmap) (a b : ℚ)
    (ha : a ∈ finite_depths d) (hb : b ∈ finite_depths d) (hab : a ≠ b) :
    ∃ mn mx : ℚ, mn ∈ finite_depths d ∧ mx ∈ finite_depths d ∧
      (∀ q ∈ finite_depths d, mn ≤ q ∧ q ≤ mx) ∧ mn < mx ∧
      Depthmap.to_bmp debug d =
        .ok (d.fr.for_each_pixel.map
          (fun p => ((p.1, p.2.1), depth_color_spec mn mx p.2.2))) ∧
      depth_color_spec mn mx (F32.finite mn) = ⟨255, 255, 255⟩ ∧
      depth_color_spec mn mx (F32.finite mx) = ⟨0, 0, 0⟩ ∧
      depth_color_spec mn mx F32.inf = Pixel.BLUE := by
  obtain ⟨mn, mx, hmm, hmn, hmx, hbnd, hlt⟩ :=
    minmax_spec (finite_depths d) a b ha hb hab
  have hne : mx - mn ≠ 0 := sub_ne_zero.mpr (ne_of_gt hlt)
  refine ⟨mn, mx, hmn, hmx, hbnd, hlt, ?_, ?_, ?_, rfl⟩
  · unfold Depthmap.to_bmp
    rw [hmm]
    unfold Frame.to_bmp
    apply mapM_ok_of_forall
    intro p hp
    have hcolor : depth_color debug mn mx p.2.2 =
        .ok (depth_color_spec mn mx p.2.2) := by
      apply depth_color_ok debug mn mx hlt
      intro q hq
      apply hbnd
      have hvmem : p.2.2 ∈ d.fr.buffer :=
        for_each_pixel_value_mem F32 d.fr p hp
      unfold finite_depths Frame.pixel_values
      exact List.mem_filterMap.mpr ⟨p.2.2, hvmem, by rw [hq]⟩
    rw [hcolor]
    rfl
  · have : (1 - (mn - mn) / (mx - mn)) * 255 = (255 : ℚ) := by
      rw [sub_self, zero_div, sub_zero, one_mul]
    simp [depth_color_spec, this, rustRound_255]
  · have : (1 - (mx - mn) / (mx - mn)) * 255 = (0 : ℚ) := by
      rw [div_self hne, sub_self, zero_mul]
    simp [depth_color_spec, this, rustRound_zero]

theorem depthmap_to_bmp_spec_witness :
    Depthmap.to_bmp false
        ⟨⟨2, 2, [F32.finite 1, F32.finite 2, F32.inf, F32.finite 3]⟩⟩ =
      .ok [((0, 0), ⟨255, 255, 255⟩), ((0, 1), ⟨128, 128, 128⟩),
           ((1, 0), Pixel.BLUE), ((1, 1), ⟨0, 0, 0⟩)] := by
  obtain ⟨mn, mx, hmn, hmx, hbnd, hlt, heq, h255, h0, hblue⟩ :=
    depthmap_to_bmp_spec false
      ⟨⟨2, 2, [F32.finite 1, F32.finite 2, F32.inf, F32.finite 3]⟩⟩
      1 3 (by decide) (by decide) (by norm_num)
  have hfd : finite_depths
      ⟨⟨2, 2, [F32.finite 1, F32.finite 2, F32.inf, F32.finite 3]⟩⟩ =
      [1, 2, 3] := rfl
  rw [hfd] at hmn hmx hbnd
  have hmn1 : mn = 1 := by
    have h1 : mn ≤ 1 := (hbnd 1 (by norm_num)).1
    have : mn = 1 ∨ mn = 2 ∨ mn = 3 := by simpa using hmn
    rcases this with h | h | h
    · exact h
    · rw [h] at h1; norm_num at h1
    · rw [h] at h1; norm_num at h1
  have hmx3 : mx = 3 := by
    have h3 : 3 ≤ mx := (hbnd 3 (by norm_num)).2
    have : mx = 1 ∨ mx = 2 ∨ mx = 3 := by simpa using hmx
    rcases this with h | h | h
    · rw [h] at h3; norm_num at h3
    · rw [h] at h3; norm_num at h3
    · exact h
  subst hmn1; subst hmx3
  have hmid : depth_color_spec 1 3 (F32.finite 2) = ⟨128, 128, 128⟩ := by
    have harg : (1 - (2 - 1) / (3 - 1)) * 255 = (255 / 2 : ℚ) := by norm_num
    have hrr : rustRound (255 / 2 : ℚ) = 128 := by
      norm_num [rustRound]
    simp [depth_color_spec, harg, hrr]
  rw [heq]
  simp only [Frame.for_each_pixel, Frame.pixel_values, List.enum, List.enumFrom,
    List.map_cons, List.map_nil]
  norm_num [h255, h0, hblue, hmid]

theorem heat_color_ok (debug : Bool) (mn mx v : ℕ) (hlt : mn < mx)
    (h0 : mn ≤ v) (h1 : v ≤ mx) :
    heat_color debug mn mx v = .ok (heat_color_spec mn mx v) := by
  have hq0 : (mn : ℚ) ≤ v := by exact_mod_cast h0
  have hq1 : (v : ℚ) ≤ mx := by exact_mod_cast h1
  have hqlt : (mn : ℚ) < mx := by exact_mod_cast hlt
  have ht := inv_lerp_ok debug v mn mx hq0 hq1 hqlt
  have ht0 : 0 ≤ ((v : ℚ) - mn) / ((mx : ℚ) - mn) :=
    div_nonneg (by linarith) (by linarith)
  have ht1 : ((v : ℚ) - mn) / ((mx : ℚ) - mn) ≤ 1 :=
    (div_le_one (by linarith)).mpr (by linarith)
  obtain ⟨hz0, hz255⟩ :=
    rustRound_bounds (((v : ℚ) - mn) / ((mx : ℚ) - mn) * 255)
      (by nlinarith) (by nlinarith)
  simp [heat_color, ht, u8cast_ok _ hz0 hz255, heat_color_spec,
    Bind.bind, Except.bind]

/-- C5: on a Heatmap with at least two distinct values, `to_bmp` succeeds
(in either build mode) and emits, at each visited coordinate, the pure-red
color `(level, 0, 0)` with `level = round(inv_lerp(v, mn, mx) * 255)`,
where `(mn, mx)` are the minimum and maximum of all pixel values; the
minimum maps to red level 0, the maximum to red level 255, and the green
and blue channels are always 0. -/
theorem heatmap_to_bmp_spec (debug : Bool) (h : Heatmap) (a b : ℕ)
    (ha : a ∈ h.fr.pixel_values) (hb : b ∈ h.fr.pixel_values)
    (hab : a ≠ b) :
    ∃ mn mx : ℕ, mn ∈ h.fr.pixel_values ∧ mx ∈ h.fr.pixel_values ∧
      (∀ v ∈ h.fr.pixel_values, mn ≤ v ∧ v ≤ mx) ∧ mn < mx ∧
      Heatmap.to_bmp debug h =
        .ok (h.fr.for_each_pixel.map
          (fun p => ((p.1, p.2.1), heat_color_spec mn mx p.2.2))) ∧
      heat_color_spec mn mx mn = ⟨0, 0, 0⟩ ∧
      heat_color_spec mn mx mx = ⟨255, 0, 0⟩ ∧
      ∀ v : ℕ, (heat_color_spec mn mx v).g = 0 ∧
        (heat_color_spec mn mx v).b = 0 := by
  obtain ⟨mn, mx, hmm, hmn, hmx, hbnd, hlt⟩ :=
    minmax_spec h.fr.pixel_values a b ha hb hab
  have hqne : (mx : ℚ) - mn ≠ 0 := by
    have : (mn : ℚ) < mx := by exact_mod_cast hlt
    exact sub_ne_zero.mpr (ne_of_gt this)
  refine ⟨mn, mx, hmn, hmx, hbnd, hlt, ?_, ?_, ?_, fun v => ⟨rfl, rfl⟩⟩
  · unfold Heatmap.to_bmp
    rw [hmm]
    unfold Frame.to_bmp
    apply mapM_ok_of_forall
    intro p hp
    have hvmem : p.2.2 ∈ h.fr.pixel_values :=
      for_each_pixel_value_mem ℕ h.fr p hp
    obtain ⟨hv0, hv1⟩ := hbnd p.2.2 hvmem
    rw [heat_color_ok debug mn mx p.2.2 hlt hv0 hv1]
    rfl
  · have harg : ((mn : ℚ) - mn) / ((mx : ℚ) - mn) * 255 = (0 : ℚ) := by
      rw [sub_self, zero_div, zero_mul]
    simp [heat_color_spec, harg, rustRound_zero]
  · have harg : ((mx : ℚ) - mn) / ((mx : ℚ) - mn) * 255 = (255 : ℚ) := by
      rw [div_self hqne, one_mul]
    simp [heat_color_spec, harg, rustRound_255]

theorem heatmap_to_bmp_spec_witness :
    Heatmap.to_bmp false ⟨⟨3, 1, [0, 10, 20]⟩⟩ =
      .ok [((0, 0), ⟨0, 0, 0⟩), ((1, 0), ⟨128, 0, 0⟩),
           ((2, 0), ⟨255, 0, 0⟩)] := by
  obtain ⟨mn, mx, hmn, hmx, hbnd, hlt, heq, h0, h255, hgb⟩ :=
    heatmap_to_bmp_spec false ⟨⟨3, 1, [0, 10, 20]⟩⟩ 0 20
      (by decide) (by decide) (by decide)
  have hmn0 : mn = 0 := Nat.le_zero.mp (hbnd 0 (by decide)).1
  have hmx20 : mx = 20 := by
    have h20 : 20 ≤ mx := (hbnd 20 (by decide)).2
    have : mx = 0 ∨ mx = 10 ∨ mx = 20 := by
      simpa [Frame.pixel_values] using hmx
    rcases this with h | h | h
    · rw [h] at h20; norm_num at h20
    · rw [h] at h20; norm_num at h20
    · exact h
  subst hmn0; subst hmx20
  have hmid : heat_color_spec 0 20 10 = ⟨128, 0, 0⟩ := by
    have harg : (((10 : ℕ) : ℚ) - ((0 : ℕ) : ℚ)) /
        (((20 : ℕ) : ℚ) - ((0 : ℕ) : ℚ)) * 255 = (255 / 2 : ℚ) := by
      norm_num
    have hrr : rustRound (255 / 2 : ℚ) = 128 := by
      norm_num [rustRound]
    simp only [heat_color_spec, harg, hrr]
    rfl
  rw [heq]
  simp only [Frame.for_each_pixel, Frame.pixel_values, List.enum, List.enumFrom,
    List.map_cons, List.map_nil]
  norm_num [h0, h255, hmid]

theorem heat_color_const (debug : Bool) (c : ℕ) :
    heat_color debug c c c =
      .error (if debug then .debugAssertFailed else .castFailed) := by
  have hd := inv_lerp_degenerate debug (c : ℚ)
  cases debug <;>
    simp [heat_color, hd, u8cast, Bind.bind, Except.bind]

/-- C10: a Heatmap with at least two pixels all holding the same value
passes the minmax degeneracy check (`MinMax(c, c)`), but the conversion
then panics — on the `debug_assert!` in `inv_lerp` in a debug build, or on
the `u8` conversion of the NaN-derived level in a release build — instead
of reporting the distinct degenerate-input error. -/
theorem heatmap_to_bmp_const_panics (debug : Bool) (h : Heatmap) (c : ℕ)
    (hlen : 2 ≤ h.fr.pixel_values.length)
    (hc : ∀ v ∈ h.fr.pixel_values, v = c) :
    Heatmap.to_bmp debug h =
      .error (if debug then .debugAssertFailed else .castFailed) ∧
    Heatmap.to_bmp debug h ≠ .error .degenerateFrame := by
  have hmm := minmax_const h.fr.pixel_values c hlen hc
  have hmain : Heatmap.to_bmp debug h =
      .error (if debug then .debugAssertFailed else .castFailed) := by
    unfold Heatmap.to_bmp
    rw [hmm]
    unfold Frame.to_bmp
    rcases hbuf : h.fr.pixel_values with _ | ⟨v0, rest⟩
    · rw [hbuf] at hlen; simp at hlen
    · have hv0 : v0 = c := hc v0 (by rw [hbuf]; simp)
      have htr : h.fr.for_each_pixel =
          (0 / h.fr.height, 0 % h.fr.height, v0) ::
            (rest.enumFrom 1).map
              (fun p => (p.1 / h.fr.height, p.1 % h.fr.height, p.2)) := by
        unfold Frame.for_each_pixel
        rw [hbuf, List.enum_cons, List.map_cons]
      rw [htr]
      apply mapM_error_head
      rw [hv0, heat_color_const debug c]
      cases debug <;> rfl
  refine ⟨hmain, ?_⟩
  rw [hmain]
  cases debug <;> simp

theorem heatmap_to_bmp_const_panics_witness :
    Heatmap.to_bmp true ⟨⟨2, 1, [5, 5]⟩⟩ = .error .debugAssertFailed ∧
    Heatmap.to_bmp false ⟨⟨2, 1, [5, 5]⟩⟩ = .error .castFailed :=
  ⟨by
    have h := (heatmap_to_bmp_const_panics true ⟨⟨2, 1, [5, 5]⟩⟩ 5
      (by decide) (by decide)).1
    simpa using h,
   by
    have h := (heatmap_to_bmp_const_panics false ⟨⟨2, 1, [5, 5]⟩⟩ 5
      (by decide) (by decide)).1
    simpa using h⟩
